import Mathlib

/-!
Verification of the CrossSave-Cloud local agent against its specification.

Each section shallowly embeds one part of the Rust source
(`src/app/src-tauri/src/core/*.rs`) as executable Lean definitions and
proves the corresponding specification claims about them.  Machine
integers of the source (`u64`, `usize`) are modelled as `Nat`; the source
never relies on wrap-around for these values.  Filesystem and network
side effects are modelled by explicit state or by pure functions of the
observed response, as noted per definition.
-/

set_option maxHeartbeats 1000000

-- ===========================================================================
-- Section 1: data model shared by packager, history and sync
-- (src/app/src-tauri/src/core/packager.rs, history.rs, cloud.rs)
-- ===========================================================================

/-- Mirrors `SaveMetadata` in `core/packager.rs` (timestamps in seconds,
`u64` modelled as `Nat`). -/
structure SaveMetadata where
  game_id : String
  emulator_id : String
  timestamp : Nat
  version_id : String
  file_list : List String
  hash : String
  size_bytes : Option Nat
  sha256 : Option String
  source : Option String
deriving Repr, DecidableEq

/-- Mirrors `HistoryEntry` in `core/history.rs`. -/
structure HistoryEntry where
  archive_path : String
  metadata_path : String
  metadata : SaveMetadata
deriving Repr, DecidableEq

/-- Mirrors `CloudVersionSummary` in `core/cloud.rs`. -/
structure CloudVersionSummary where
  version_id : String
  timestamp : Nat
  size_bytes : Nat
  device_id : String
  file_list : List String
  sha256 : String
deriving Repr, DecidableEq

/-- Mirrors `SyncDecision` in `core/sync.rs`. -/
inductive SyncDecision where
  | Upload
  | Download (version_id : String)
  | Conflict
  | Noop
deriving Repr, DecidableEq

-- ===========================================================================
-- Section 2: sync decision procedure (core/sync.rs, determine_sync_action)
-- ===========================================================================

/-- Mirrors `cloud_versions.iter().max_by_key(|v| v.timestamp)` in
`determine_sync_action`: the maximum by timestamp, returning the last
maximal element on ties, `none` on the empty list. -/
def maxByTimestamp (l : List CloudVersionSummary) : Option CloudVersionSummary :=
  l.foldl
    (fun acc v =>
      match acc with
      | none => some v
      | some m => if m.timestamp ≤ v.timestamp then some v else some m)
    none

/-- Mirrors the `time_diff` computation of `determine_sync_action`
(lines 78-82 of `core/sync.rs`). -/
def tsDist (cloud_time local_time : Nat) : Nat :=
  if cloud_time > local_time then cloud_time - local_time else local_time - cloud_time

/-- Shallow embedding of `determine_sync_action` in `core/sync.rs`
(lines 59-97).  The `current_device` parameter is accepted and ignored,
exactly as `_current_device` is in the source. -/
def determine_sync_action (local_entry : Option HistoryEntry)
    (cloud_versions : List CloudVersionSummary) (current_device : String) :
    SyncDecision :=
  let latest_cloud := maxByTimestamp cloud_versions
  match local_entry, latest_cloud with
  | some _, none => SyncDecision.Upload
  | none, some cloud => SyncDecision.Download cloud.version_id
  | none, none => SyncDecision.Noop
  | some l, some cloud =>
      let local_time := l.metadata.timestamp
      let cloud_time := cloud.timestamp
      if cloud.sha256 = l.metadata.hash then
        SyncDecision.Noop
      else
        let time_diff := tsDist cloud_time local_time
        let conflict_window := time_diff ≤ 2
        if conflict_window then
          SyncDecision.Conflict
        else if cloud_time > local_time then
          SyncDecision.Download cloud.version_id
        else
          SyncDecision.Upload

theorem maxByTimestamp_nil : maxByTimestamp [] = none := rfl

theorem maxByTimestamp_go (l : List CloudVersionSummary) (m : CloudVersionSummary) :
    ∃ v, l.foldl
        (fun acc v =>
          match acc with
          | none => some v
          | some m => if m.timestamp ≤ v.timestamp then some v else some m)
        (some m) = some v
      ∧ (v = m ∨ v ∈ l) ∧ m.timestamp ≤ v.timestamp
      ∧ ∀ w ∈ l, w.timestamp ≤ v.timestamp := by
  induction l generalizing m with
  | nil => exact ⟨m, rfl, Or.inl rfl, Nat.le_refl _, by simp⟩
  | cons h t ih =>
      by_cases hle : m.timestamp ≤ h.timestamp
      · obtain ⟨v, hfold, hmem, hts, hall⟩ := ih h
        refine ⟨v, ?_, ?_, Nat.le_trans hle hts, ?_⟩
        · simpa [hle] using hfold
        · rcases hmem with rfl | hv
          · exact Or.inr (List.mem_cons_self _ _)
          · exact Or.inr (List.mem_cons_of_mem _ hv)
        · intro w hw
          rcases List.mem_cons.mp hw with rfl | hw
          · exact hts
          · exact hall w hw
      · obtain ⟨v, hfold, hmem, hts, hall⟩ := ih m
        refine ⟨v, ?_, ?_, hts, ?_⟩
        · simpa [hle] using hfold
        · rcases hmem with rfl | hv
          · exact Or.inl rfl
          · exact Or.inr (List.mem_cons_of_mem _ hv)
        · intro w hw
          rcases List.mem_cons.mp hw with rfl | hw
          · exact Nat.le_trans (Nat.le_of_not_le hle) hts
          · exact hall w hw

theorem maxByTimestamp_spec (l : List CloudVersionSummary) (hne : l ≠ []) :
    ∃ v, maxByTimestamp l = some v ∧ v ∈ l ∧ ∀ w ∈ l, w.timestamp ≤ v.timestamp := by
  cases l with
  | nil => exact absurd rfl hne
  | cons h t =>
      obtain ⟨v, hfold, hmem, hts, hall⟩ := maxByTimestamp_go t h
      refine ⟨v, ?_, ?_, ?_⟩
      · simpa [maxByTimestamp] using hfold
      · rcases hmem with rfl | hv
        · exact List.mem_cons_self _ _
        · exact List.mem_cons_of_mem _ hv
      · intro w hw
        rcases List.mem_cons.mp hw with rfl | hw
        · exact hts
        · exact hall w hw

/-- C1: `determine_sync_action` returns Upload when only local exists; the
Download of a maximal-timestamp remote when only remote versions exist;
Noop when neither exists; and when both exist it returns Noop on hash
equality, Conflict on differing hashes within the 2-second window,
Download of the latest remote when the remote is strictly newer outside
the window, and Upload otherwise. -/
theorem determine_sync_action_cases (local_entry : Option HistoryEntry)
    (versions : List CloudVersionSummary) (device : String) :
    (local_entry.isSome → versions = [] →
      determine_sync_action local_entry versions device = SyncDecision.Upload)
    ∧ (local_entry = none → versions ≠ [] →
      ∃ v, v ∈ versions ∧ (∀ w ∈ versions, w.timestamp ≤ v.timestamp) ∧
        determine_sync_action local_entry versions device = SyncDecision.Download v.version_id)
    ∧ (local_entry = none → versions = [] →
      determine_sync_action local_entry versions device = SyncDecision.Noop)
    ∧ (∀ l v, local_entry = some l → maxByTimestamp versions = some v →
        ((v.sha256 = l.metadata.hash →
          determine_sync_action local_entry versions device = SyncDecision.Noop)
        ∧ (v.sha256 ≠ l.metadata.hash → tsDist v.timestamp l.metadata.timestamp ≤ 2 →
          determine_sync_action local_entry versions device = SyncDecision.Conflict)
        ∧ (v.sha256 ≠ l.metadata.hash → 2 < tsDist v.timestamp l.metadata.timestamp →
          l.metadata.timestamp < v.timestamp →
          determine_sync_action local_entry versions device = SyncDecision.Download v.version_id)
        ∧ (v.sha256 ≠ l.metadata.hash → 2 < tsDist v.timestamp l.metadata.timestamp →
          ¬ l.metadata.timestamp < v.timestamp →
          determine_sync_action local_entry versions device = SyncDecision.Upload))) := by
  refine ⟨?_, ?_, ?_, ?_⟩
  · intro hsome hnil
    subst hnil
    cases local_entry with
    | none => simp at hsome
    | some l => rfl
  · intro hnone hne
    subst hnone
    obtain ⟨v, hmax, hmem, hall⟩ := maxByTimestamp_spec versions hne
    exact ⟨v, hmem, hall, by simp [determine_sync_action, hmax]⟩
  · intro hnone hnil
    subst hnone hnil
    rfl
  · intro l v hl hv
    subst hl
    refine ⟨?_, ?_, ?_, ?_⟩
    · intro hhash
      simp [determine_sync_action, hv, hhash]
    · intro hhash hwin
      simp [determine_sync_action, hv, hhash, hwin]
    · intro hhash hwin hlt
      have hnotwin : ¬ tsDist v.timestamp l.metadata.timestamp ≤ 2 := Nat.not_le_of_lt hwin
      simp [determine_sync_action, hv, hhash, hnotwin, hlt]
    · intro hhash hwin hnlt
      have hnotwin : ¬ tsDist v.timestamp l.metadata.timestamp ≤ 2 := Nat.not_le_of_lt hwin
      simp [determine_sync_action, hv, hhash, hnotwin, hnlt]

/-- Witness for C1: scenario S3 of the specification.  Local hash "AA" at
timestamp 1000 against remote version "v1" with sha256 "BB" at timestamp
1010 decides Download("v1"). -/
theorem determine_sync_action_cases_witness :
    determine_sync_action
      (some { archive_path := "a.zip", metadata_path := "a.json"
              metadata := { game_id := "g", emulator_id := "e", timestamp := 1000
                            version_id := "lv", file_list := [], hash := "AA"
                            size_bytes := none, sha256 := none, source := none } })
      [{ version_id := "v1", timestamp := 1010, size_bytes := 1, device_id := "d"
         file_list := [], sha256 := "BB" }] "D1" = SyncDecision.Download "v1" := by
  have h := (determine_sync_action_cases
      (some { archive_path := "a.zip", metadata_path := "a.json"
              metadata := { game_id := "g", emulator_id := "e", timestamp := 1000
                            version_id := "lv", file_list := [], hash := "AA"
                            size_bytes := none, sha256 := none, source := none } })
      [{ version_id := "v1", timestamp := 1010, size_bytes := 1, device_id := "d"
         file_list := [], sha256 := "BB" }] "D1").2.2.2
      { archive_path := "a.zip", metadata_path := "a.json"
        metadata := { game_id := "g", emulator_id := "e", timestamp := 1000
                      version_id := "lv", file_list := [], hash := "AA"
                      size_bytes := none, sha256 := none, source := none } }
      { version_id := "v1", timestamp := 1010, size_bytes := 1, device_id := "d"
        file_list := [], sha256 := "BB" } rfl rfl
  exact h.2.2.1 (by decide) (by decide) (by decide)

/-- C10: the sync decision never depends on the device identity; the
source binds the parameter as `_current_device` and never reads it. -/
theorem determine_sync_action_device_independent
    (local_entry : Option HistoryEntry) (versions : List CloudVersionSummary)
    (d1 d2 : String) :
    determine_sync_action local_entry versions d1 =
      determine_sync_action local_entry versions d2 := rfl

-- ===========================================================================
-- Section 3: client-side game id sanitizer (core/cloud.rs, sanitize_game_id)
-- ===========================================================================

/-- Models the Rust standard library predicate `char::is_alphanumeric`,
which is true for Unicode Alphabetic characters and Unicode Numbers.
The model is exact for all code points below 0x100 (ASCII plus the
Latin-1 Supplement, whose alphanumeric code points are the ordinals
0xAA, 0xB2, 0xB3, 0xB5, 0xB9, 0xBA, 0xBC, 0xBD, 0xBE and the letter
range 0xC0-0xFF minus the two operators 0xD7 and 0xF7).  Code points at
or above 0x100 are outside the modelled domain and mapped to false; no
theorem below evaluates the sanitizer there. -/
def rust_is_alphanumeric (c : Char) : Bool :=
  if c.toNat < 0x80 then c.isAlpha || c.isDigit
  else if c.toNat < 0x100 then
    (c.toNat == 0xAA) || (c.toNat == 0xB2) || (c.toNat == 0xB3) ||
    (c.toNat == 0xB5) || (c.toNat == 0xB9) || (c.toNat == 0xBA) ||
    (c.toNat == 0xBC) || (c.toNat == 0xBD) || (c.toNat == 0xBE) ||
    (decide (0xC0 ≤ c.toNat) && !(c.toNat == 0xD7) && !(c.toNat == 0xF7))
  else false

/-- Shallow embedding of `sanitize_game_id` in `core/cloud.rs` (lines
27-41): map each character, keeping it when `is_alphanumeric` or one of
`_ . -`, replacing it with an underscore otherwise, then truncate to 128
characters. -/
def sanitize_game_id (game_id : String) : String :=
  String.mk
    ((game_id.toList.map
      (fun c =>
        if rust_is_alphanumeric c || c = '_' || c = '.' || c = '-' then c else '_')).take 128)

/-- The validation pattern stated by the specification and by the doc
comment of `sanitize_game_id` itself: `/^[A-Za-z0-9_.-]{1,128}$/`. -/
def matches_game_id_pattern (s : String) : Bool :=
  decide (1 ≤ s.length) && decide (s.length ≤ 128) &&
  s.toList.all (fun c =>
    (decide ('A' ≤ c) && decide (c ≤ 'Z')) ||
    (decide ('a' ≤ c) && decide (c ≤ 'z')) ||
    (decide ('0' ≤ c) && decide (c ≤ '9')) ||
    (c = '_') || (c = '.') || (c = '-'))

/-- C8: evaluation of the sanitizer at the failing input.  The character
U+00E9 (a Latin-1 letter) is alphanumeric for the Unicode-aware
`char::is_alphanumeric`, so `sanitize_game_id` keeps it, and the output
violates the ASCII pattern `/^[A-Za-z0-9_.-]{1,128}$/` that both the
specification and the function documentation promise. -/
theorem sanitize_game_id_keeps_unicode :
    sanitize_game_id "é" = "é" ∧
    matches_game_id_pattern (sanitize_game_id "é") = false := by
  constructor
  · rfl
  · decide

-- ===========================================================================
-- Section 4: filesystem watcher coalescing (core/watcher.rs)
-- ===========================================================================

/-- Mirrors `notify::event::CreateKind` (payload-free model). -/
inductive NCreateKind where
  | Any | File | Folder | Other
deriving Repr, DecidableEq

/-- Mirrors `notify::event::RemoveKind`. -/
inductive NRemoveKind where
  | Any | File | Folder | Other
deriving Repr, DecidableEq

/-- Mirrors `notify::event::RenameMode`. -/
inductive NRenameMode where
  | Any | To | From | Both | Other
deriving Repr, DecidableEq

/-- Mirrors `notify::event::ModifyKind`; the `Data` and `Metadata`
payloads are dropped because `map_event_kind` matches them with a
wildcard. -/
inductive NModifyKind where
  | Any | Data | Metadata | Name (mode : NRenameMode) | Other
deriving Repr, DecidableEq

/-- Mirrors `notify::EventKind`; the `Access` payload is dropped because
`map_event_kind` maps every access event to nothing. -/
inductive NEventKind where
  | Any
  | Access
  | Create (kind : NCreateKind)
  | Modify (kind : NModifyKind)
  | Remove (kind : NRemoveKind)
  | Other
deriving Repr, DecidableEq

/-- Mirrors `WatchEventType` in `core/watcher.rs`. -/
inductive WatchEventType where
  | Add | Modify | Delete
deriving Repr, DecidableEq

/-- Mirrors `notify::Event`: an event kind plus the affected paths. -/
structure NEvent where
  kind : NEventKind
  paths : List String
deriving Repr, DecidableEq

/-- Mirrors `WatchEventPayload` in `core/watcher.rs`. -/
structure WatchEventPayload where
  path : String
  event_type : WatchEventType
deriving Repr, DecidableEq

/-- Shallow embedding of `map_event_kind` in `core/watcher.rs` (lines
227-248). -/
def map_event_kind : NEventKind → Option WatchEventType
  | NEventKind.Create NCreateKind.Any => some WatchEventType.Add
  | NEventKind.Create NCreateKind.File => some WatchEventType.Add
  | NEventKind.Create NCreateKind.Folder => some WatchEventType.Add
  | NEventKind.Create NCreateKind.Other => some WatchEventType.Add
  | NEventKind.Modify NModifyKind.Any => some WatchEventType.Modify
  | NEventKind.Modify NModifyKind.Data => some WatchEventType.Modify
  | NEventKind.Modify NModifyKind.Metadata => some WatchEventType.Modify
  | NEventKind.Modify (NModifyKind.Name NRenameMode.Both) => some WatchEventType.Modify
  | NEventKind.Modify (NModifyKind.Name NRenameMode.To) => some WatchEventType.Modify
  | NEventKind.Modify NModifyKind.Other => some WatchEventType.Modify
  | NEventKind.Remove NRemoveKind.Any => some WatchEventType.Delete
  | NEventKind.Remove NRemoveKind.File => some WatchEventType.Delete
  | NEventKind.Remove NRemoveKind.Folder => some WatchEventType.Delete
  | NEventKind.Remove NRemoveKind.Other => some WatchEventType.Delete
  | NEventKind.Modify (NModifyKind.Name NRenameMode.From) => some WatchEventType.Delete
  | _ => none

/-- Models `HashMap::insert` on the pending map, represented as an
association list keyed by path: overwrite the value when the key is
present, append otherwise. -/
def pendingInsert (pending : List (String × WatchEventType)) (path : String)
    (t : WatchEventType) : List (String × WatchEventType) :=
  if pending.any (fun kv => kv.1 == path) then
    pending.map (fun kv => if kv.1 == path then (path, t) else kv)
  else
    pending ++ [(path, t)]

/-- Shallow embedding of `register_event` in `core/watcher.rs` (lines
191-204): events whose kind maps to nothing leave the pending map
unchanged; otherwise the mapped type is inserted for every path of the
event.  The boolean return of the source only re-arms the debounce
timer and is omitted. -/
def register_event (pending : List (String × WatchEventType)) (ev : NEvent) :
    List (String × WatchEventType) :=
  match map_event_kind ev.kind with
  | none => pending
  | some t => ev.paths.foldl (fun acc p => pendingInsert acc p t) pending

/-- Shallow embedding of `flush_events` in `core/watcher.rs` (lines
206-225): drain the whole pending map, emitting one payload per path. -/
def flush_events (pending : List (String × WatchEventType)) : List WatchEventPayload :=
  pending.map (fun kv => { path := kv.1, event_type := kv.2 })

/-- The last mapped event type of a raw event sequence; events whose kind
maps to nothing do not change it. -/
def lastMappedType (events : List NEvent) : Option WatchEventType :=
  events.foldl
    (fun acc ev =>
      match map_event_kind ev.kind with
      | some t => some t
      | none => acc)
    none

/-- The pending map accumulated for a single path is empty or a single
binding for that path. -/
def singlePending (p : String) : Option WatchEventType → List (String × WatchEventType)
  | none => []
  | some t => [(p, t)]

theorem register_fold_single (events : List NEvent) (p : String) :
    ∀ acc, (∀ ev ∈ events, ev.paths = [p]) →
    events.foldl register_event (singlePending p acc) =
      singlePending p
        (events.foldl
          (fun a ev =>
            match map_event_kind ev.kind with
            | some t => some t
            | none => a)
          acc) := by
  induction events with
  | nil => intro acc _; rfl
  | cons ev rest ih =>
      intro acc hpaths
      have hev : ev.paths = [p] := hpaths ev (List.mem_cons_self _ _)
      have hrest : ∀ e ∈ rest, e.paths = [p] := fun e he =>
        hpaths e (List.mem_cons_of_mem _ he)
      simp only [List.foldl_cons]
      cases hk : map_event_kind ev.kind with
      | none =>
          have hreg : register_event (singlePending p acc) ev = singlePending p acc := by
            simp [register_event, hk]
          rw [hreg, ih acc hrest]
      | some t =>
          have hreg : register_event (singlePending p acc) ev = singlePending p (some t) := by
            simp only [register_event, hk, hev]
            cases acc with
            | none => simp [singlePending, pendingInsert]
            | some u => simp [singlePending, pendingInsert]
          rw [hreg, ih (some t) hrest]

/-- C9: for any sequence of raw events on the same path, accumulating
them into an empty pending map and flushing emits exactly one payload
for that path, whose type is the last mapped type of the sequence;
unmapped events are dropped and do not affect the coalesced type. -/
theorem watcher_coalescing (events : List NEvent) (p : String) (t : WatchEventType)
    (hpaths : ∀ ev ∈ events, ev.paths = [p])
    (hlast : lastMappedType events = some t) :
    flush_events (events.foldl register_event []) = [{ path := p, event_type := t }] := by
  have h := register_fold_single events p none hpaths
  simp only [singlePending] at h
  rw [h]
  have : lastMappedType events = events.foldl
      (fun a ev =>
        match map_event_kind ev.kind with
        | some t => some t
        | none => a)
      none := rfl
  rw [← this, hlast]
  rfl

/-- Witness for C9: a create, an unmapped access event and a data modify
on the same path coalesce to a single Modify payload. -/
theorem watcher_coalescing_witness :
    flush_events
      ([{ kind := NEventKind.Create NCreateKind.File, paths := ["save.srm"] },
        { kind := NEventKind.Access, paths := ["save.srm"] },
        { kind := NEventKind.Modify NModifyKind.Data, paths := ["save.srm"] }].foldl
        register_event []) =
      [{ path := "save.srm", event_type := WatchEventType.Modify }] := by
  exact watcher_coalescing _ "save.srm" WatchEventType.Modify (by decide) (by decide)

-- ===========================================================================
-- Section 5: upload queue persistence and durability (core/sync.rs)
-- ===========================================================================

/-- Mirrors `UploadStatus` in `core/sync.rs`. -/
inductive UploadStatus where
  | Pending | Uploading | Failed | Completed
deriving Repr, DecidableEq, BEq

/-- Mirrors `UploadJob` in `core/sync.rs`; `created_at` (a UTC instant)
is modelled as epoch seconds and `archive_path` as a string. -/
structure UploadJob where
  game_id : String
  emulator_id : String
  version_id : String
  archive_path : String
  metadata : SaveMetadata
  created_at : Nat
  retries : Nat
  status : UploadStatus
  total_size : Nat
  hash : String
deriving Repr, DecidableEq

/-- The job list `save_to_disk` serializes (lines 327-336 of
`core/sync.rs`): only Pending and Uploading jobs are kept. -/
def persistedJobs (queue : List UploadJob) : List UploadJob :=
  queue.filter
    (fun job =>
      decide (job.status = UploadStatus.Pending) || decide (job.status = UploadStatus.Uploading))

/-- The per-job rewrite applied by `load_from_disk` (lines 307-310):
an Uploading job is reset to Pending. -/
def loadRewrite (job : UploadJob) : UploadJob :=
  if job.status = UploadStatus.Uploading then
    { job with status := UploadStatus.Pending }
  else job

/-- Shallow embedding of `UploadQueue::load_from_disk` (lines 297-319):
the in-memory queue is cleared and replaced by the persisted jobs, each
passed through `loadRewrite`. -/
def load_from_disk (persisted : List UploadJob) : List UploadJob :=
  persisted.map loadRewrite

/-- State of the upload queue: the in-memory FIFO plus the jobs held by
the on-disk JSON snapshot (`sync_queue.json`). -/
structure QueueState where
  queue : List UploadJob
  disk : List UploadJob
deriving Repr, DecidableEq

/-- Shallow embedding of `UploadQueue::save_to_disk` (lines 321-344):
replace the snapshot with the Pending and Uploading jobs of the queue. -/
def UploadQueue.save_to_disk (st : QueueState) : QueueState :=
  { st with disk := persistedJobs st.queue }

/-- Shallow embedding of `UploadQueue::add_job` (lines 276-295): skip a
job whose `version_id` is already queued; otherwise push it to the back
and write the snapshot. -/
def UploadQueue.add_job (st : QueueState) (job : UploadJob) : QueueState :=
  if st.queue.any (fun j => j.version_id == job.version_id) then st
  else UploadQueue.save_to_disk { st with queue := st.queue ++ [job] }

/-- Shallow embedding of `UploadQueue::clear` (lines 360-364): the queue
is emptied and a status event is emitted; no snapshot is written. -/
def UploadQueue.clear (st : QueueState) : QueueState :=
  { st with queue := [] }

/-- Shallow embedding of one iteration of `UploadQueue::process_queue`
(lines 397-457) on a non-empty queue, with the result of
`perform_upload` supplied as `upload_ok`: pop the head, mark it
Uploading, snapshot; then on success drop it, on failure with fewer
than 3 prior retries push it back to the front with `retries + 1`, on
the fourth failure mark it Failed and drop it; snapshot again. -/
def UploadQueue.process_step (st : QueueState) (upload_ok : Bool) : QueueState :=
  match st.queue with
  | [] => st
  | job :: rest =>
      let job1 := { job with status := UploadStatus.Uploading }
      let after_pop := UploadQueue.save_to_disk { st with queue := rest }
      if upload_ok then
        UploadQueue.save_to_disk after_pop
      else if job1.retries < 3 then
        let job2 := { job1 with retries := job1.retries + 1 }
        UploadQueue.save_to_disk { after_pop with queue := job2 :: rest }
      else
        UploadQueue.save_to_disk after_pop

/-- A concrete job used by witnesses and counterexamples below. -/
def sampleJob (status : UploadStatus) : UploadJob :=
  { game_id := "sm64", emulator_id := "dolphin", version_id := "v1"
    archive_path := "a.zip"
    metadata := { game_id := "sm64", emulator_id := "dolphin", timestamp := 1000
                  version_id := "v1", file_list := ["save.srm"], hash := "AA"
                  size_bytes := none, sha256 := none, source := none }
    created_at := 1000, retries := 0, status := status, total_size := 3, hash := "AA" }

/-- C6: the persistence round trip.  `save_to_disk` persists exactly the
queued jobs whose status is Pending or Uploading, never Completed or
Failed ones; `load_from_disk` replaces the queue with the persisted
jobs after rewriting Uploading to Pending, leaving other statuses
unchanged, so no loaded job is in state Uploading. -/
theorem upload_queue_persistence (q jobs : List UploadJob) (j : UploadJob) :
    (j ∈ persistedJobs q ↔
      j ∈ q ∧ (j.status = UploadStatus.Pending ∨ j.status = UploadStatus.Uploading))
    ∧ ((j.status = UploadStatus.Completed ∨ j.status = UploadStatus.Failed) →
      j ∉ persistedJobs q)
    ∧ (j ∈ load_from_disk jobs → j.status ≠ UploadStatus.Uploading)
    ∧ (j ∈ jobs → loadRewrite j ∈ load_from_disk jobs)
    ∧ (j.status ≠ UploadStatus.Uploading → loadRewrite j = j)
    ∧ (j.status = UploadStatus.Uploading →
      loadRewrite j = { j with status := UploadStatus.Pending }) := by
  refine ⟨?_, ?_, ?_, ?_, ?_, ?_⟩
  · constructor
    · intro hj
      have := List.mem_filter.mp hj
      refine ⟨this.1, ?_⟩
      rcases this with ⟨-, hcond⟩
      cases hstat : j.status <;> simp [hstat] at hcond ⊢
    · intro ⟨hmem, hstat⟩
      refine List.mem_filter.mpr ⟨hmem, ?_⟩
      rcases hstat with h | h <;> simp [h]
  · intro hterm hj
    have := (List.mem_filter.mp hj).2
    rcases hterm with h | h <;> simp [h] at this
  · intro hj
    obtain ⟨j0, hj0, hrw⟩ := List.mem_map.mp hj
    subst hrw
    unfold loadRewrite
    cases hstat : j0.status <;> simp [hstat]
  · intro hj
    exact List.mem_map.mpr ⟨j, hj, rfl⟩
  · intro hstat
    unfold loadRewrite
    cases h : j.status <;> simp_all
  · intro hstat
    simp [loadRewrite, hstat]

/-- Witness for C6: a concrete queue with one job of each status
persists exactly the Pending and the Uploading job, and loading a
persisted Uploading job yields it in state Pending. -/
theorem upload_queue_persistence_witness :
    (sampleJob UploadStatus.Completed ∉
      persistedJobs [sampleJob UploadStatus.Pending, sampleJob UploadStatus.Completed])
    ∧ loadRewrite (sampleJob UploadStatus.Uploading) =
      { sampleJob UploadStatus.Uploading with status := UploadStatus.Pending } :=
  ⟨(upload_queue_persistence
      [sampleJob UploadStatus.Pending, sampleJob UploadStatus.Completed] []
      (sampleJob UploadStatus.Completed)).2.1 (Or.inl rfl),
   (upload_queue_persistence [] [] (sampleJob UploadStatus.Uploading)).2.2.2.2.2 rfl⟩

/-- The durability relation between the on-disk snapshot and the queue:
the snapshot holds exactly the Pending and Uploading jobs currently in
the FIFO. -/
def diskMatchesQueue (st : QueueState) : Prop :=
  st.disk = persistedJobs st.queue

/-- C7 counterexample: `UploadQueue::clear` empties the FIFO without
writing a snapshot, so after clearing a queue that held one pending job
the on-disk snapshot still holds that job and does not reflect the
queue. -/
theorem upload_queue_clear_skips_snapshot :
    ¬ diskMatchesQueue
      (UploadQueue.clear
        (UploadQueue.add_job { queue := [], disk := [] } (sampleJob UploadStatus.Pending))) := by
  unfold diskMatchesQueue
  decide

/-- C7 amended: adding a job and every iteration of the processing loop
(pop, retry push-front included) re-establish `diskMatchesQueue`, but
`clear` empties the FIFO while leaving the on-disk snapshot untouched. -/
theorem upload_queue_durability (st : QueueState) (job : UploadJob) (upload_ok : Bool) :
    (diskMatchesQueue st → diskMatchesQueue (UploadQueue.add_job st job))
    ∧ (diskMatchesQueue st → diskMatchesQueue (UploadQueue.process_step st upload_ok))
    ∧ ((UploadQueue.clear st).queue = [] ∧ (UploadQueue.clear st).disk = st.disk) := by
  refine ⟨?_, ?_, rfl, rfl⟩
  · intro hst
    unfold UploadQueue.add_job
    split
    · exact hst
    · rfl
  · intro hst
    unfold UploadQueue.process_step
    cases st.queue with
    | nil => exact hst
    | cons job0 rest =>
        simp only []
        split
        · rfl
        · split
          · rfl
          · rfl

/-- Witness for C7: the durability invariant concretely survives adding
a job to the empty queue and then processing it with a failing upload. -/
theorem upload_queue_durability_witness :
    diskMatchesQueue
      (UploadQueue.process_step
        (UploadQueue.add_job { queue := [], disk := [] } (sampleJob UploadStatus.Pending))
        false) :=
  (upload_queue_durability
      (UploadQueue.add_job { queue := [], disk := [] } (sampleJob UploadStatus.Pending))
      (sampleJob UploadStatus.Pending) false).2.1
    ((upload_queue_durability { queue := [], disk := [] }
        (sampleJob UploadStatus.Pending) false).1 rfl)

-- ===========================================================================
-- Section 6: HTTP backend list_versions status mapping (core/cloud.rs)
-- ===========================================================================

/-- Mirrors `CloudError` in `core/cloud.rs`; `Io` is spelled `IoError`
here. -/
inductive CloudError where
  | NotEnabled
  | Disabled
  | NetworkError (msg : String)
  | StorageError (msg : String)
  | NotFound (msg : String)
  | InvalidConfig (msg : String)
  | IoError (msg : String)
  | Serialization (msg : String)
  | Unauthorized (msg : String)
deriving Repr, DecidableEq

/-- Mirrors the local `SaveListVersion` deserialization struct of
`list_versions` in `core/cloud.rs` (lines 903-913). -/
structure SaveListVersion where
  version_id : String
  size_bytes : Nat
  timestamp : Nat
  device_id : String
  sha256 : String
  file_list : List String
deriving Repr, DecidableEq

/-- Mirrors the local `SaveListResponse` deserialization struct of
`list_versions` (lines 915-922). -/
structure SaveListResponse where
  ok : Bool
  versions : List SaveListVersion
  error : Option String
deriving Repr, DecidableEq

/-- The comparator `|a, b| b.timestamp.cmp(&a.timestamp)` used by
`versions.sort_by` in `list_versions` (line 948): descending by
timestamp. -/
def cloudVersionGE (a b : CloudVersionSummary) : Prop :=
  b.timestamp ≤ a.timestamp

instance : DecidableRel cloudVersionGE :=
  fun a b => Nat.decLe b.timestamp a.timestamp

instance : IsTotal CloudVersionSummary cloudVersionGE :=
  ⟨fun a b => Nat.le_total b.timestamp a.timestamp⟩

instance : IsTrans CloudVersionSummary cloudVersionGE :=
  ⟨fun _ _ _ hab hbc => Nat.le_trans hbc hab⟩

/-- The per-entry conversion of `list_versions` (lines 935-946). -/
def convertSaveListVersion (e : SaveListVersion) : CloudVersionSummary :=
  { version_id := e.version_id, timestamp := e.timestamp, size_bytes := e.size_bytes
    device_id := e.device_id, file_list := e.file_list, sha256 := e.sha256 }

/-- Mirrors `reqwest::StatusCode::is_success`: 200 to 299. -/
def reqwest_is_success (status : Nat) : Bool :=
  decide (200 ≤ status) && decide (status < 300)

/-- Shallow embedding of `HttpCloudBackend::list_versions` in
`core/cloud.rs` (lines 865-961) as a pure function of the observed HTTP
response: the status code, the raw error body read for non-2xx
responses, and the parse result of the JSON body (`none` when the body
is not a `SaveListResponse`).  The stringified status of the source
error message (`Display` of `StatusCode`) is modelled by the decimal
code; the reason phrase is elided.  The source sort
`versions.sort_by(|a, b| b.timestamp.cmp(&a.timestamp))` is a stable
descending sort, modelled by insertion sort with `cloudVersionGE`, and
`truncate(limit.min(len))` keeps the first `min limit len` elements. -/
def HttpCloudBackend.list_versions (limit : Option Nat) (status : Nat)
    (error_body : String) (parsed : Option SaveListResponse) :
    Except CloudError (List CloudVersionSummary) :=
  if status = 401 then
    Except.error (CloudError.Unauthorized "invalid token")
  else if reqwest_is_success status = false then
    Except.error (CloudError.NetworkError
      ("list failed: " ++ toString status ++ " - " ++ error_body))
  else
    match parsed with
    | none => Except.error (CloudError.Serialization "invalid SaveListResponse body")
    | some resp =>
        if resp.ok = false then
          Except.error (CloudError.NetworkError (resp.error.getD "list_failed"))
        else
          let versions := resp.versions.map convertSaveListVersion
          let sorted := List.insertionSort cloudVersionGE versions
          Except.ok
            (match limit with
             | some n => sorted.take (min n sorted.length)
             | none => sorted)

/-- C4 counterexample: a 404 response does not yield an empty result
list; `list_versions` has no 404 branch and returns the generic
`NetworkError` for every non-2xx status other than 401. -/
theorem list_versions_404_is_error :
    HttpCloudBackend.list_versions (some 1) 404 "Not Found" none =
      Except.error (CloudError.NetworkError ("list failed: " ++ "404" ++ " - " ++ "Not Found"))
    ∧ HttpCloudBackend.list_versions (some 1) 404 "Not Found" none ≠
      Except.ok ([] : List CloudVersionSummary) := by
  refine ⟨?_, ?_⟩
  · rfl
  · intro hcon
    exact Except.noConfusion ((rfl :
      HttpCloudBackend.list_versions (some 1) 404 "Not Found" none =
        Except.error (CloudError.NetworkError
          ("list failed: " ++ "404" ++ " - " ++ "Not Found"))) ▸ hcon)

/-- C4 amended: a 401 response yields Unauthorized("invalid token"); any
other non-2xx response, 404 included, yields a NetworkError whose
message contains the stringified status; every successful result is
sorted by timestamp descending, truncated to the given limit, and, when
no limit is given, a permutation of the parsed versions. -/
theorem list_versions_status_mapping (limit : Option Nat) (status : Nat)
    (error_body : String) (parsed : Option SaveListResponse) :
    (status = 401 →
      HttpCloudBackend.list_versions limit status error_body parsed =
        Except.error (CloudError.Unauthorized "invalid token"))
    ∧ (status ≠ 401 → reqwest_is_success status = false →
      ∃ pre post, HttpCloudBackend.list_versions limit status error_body parsed =
        Except.error (CloudError.NetworkError (pre ++ toString status ++ post)))
    ∧ (∀ out, HttpCloudBackend.list_versions limit status error_body parsed = Except.ok out →
      List.Sorted cloudVersionGE out)
    ∧ (∀ out n, limit = some n →
      HttpCloudBackend.list_versions limit status error_body parsed = Except.ok out →
      out.length ≤ n)
    ∧ (∀ out resp, limit = none → parsed = some resp →
      HttpCloudBackend.list_versions limit status error_body parsed = Except.ok out →
      out.Perm (resp.versions.map convertSaveListVersion)) := by
  refine ⟨?_, ?_, ?_, ?_, ?_⟩
  · intro h401
    simp [HttpCloudBackend.list_versions, h401]
  · intro h401 hfail
    refine ⟨"list failed: ", " - " ++ error_body, ?_⟩
    simp only [HttpCloudBackend.list_versions, h401, hfail, if_true, if_false]
    rw [String.append_assoc]
  · intro out hout
    unfold HttpCloudBackend.list_versions at hout
    split at hout
    · exact Except.noConfusion hout
    · split at hout
      · exact Except.noConfusion hout
      · cases parsed with
        | none => exact Except.noConfusion hout
        | some resp =>
            simp only [] at hout
            split at hout
            · exact Except.noConfusion hout
            · have hok := Except.ok.inj hout
              subst hok
              cases limit with
              | none => exact List.sorted_insertionSort cloudVersionGE _
              | some n =>
                  exact List.Pairwise.sublist (List.take_sublist _ _)
                    (List.sorted_insertionSort cloudVersionGE _)
  · intro out n hn hout
    subst hn
    unfold HttpCloudBackend.list_versions at hout
    split at hout
    · exact Except.noConfusion hout
    · split at hout
      · exact Except.noConfusion hout
      · cases parsed with
        | none => exact Except.noConfusion hout
        | some resp =>
            simp only [] at hout
            split at hout
            · exact Except.noConfusion hout
            · have hok := Except.ok.inj hout
              subst hok
              simp only [List.length_take]
              omega
  · intro out resp hnone hresp hout
    subst hnone
    subst hresp
    unfold HttpCloudBackend.list_versions at hout
    split at hout
    · exact Except.noConfusion hout
    · split at hout
      · exact Except.noConfusion hout
      · simp only [] at hout
        split at hout
        · exact Except.noConfusion hout
        · have hok := Except.ok.inj hout
          subst hok
          exact List.perm_insertionSort cloudVersionGE _

/-- Witness for C4: a 200 response with two versions and limit 1 yields
the single latest version, so the truncation bound applies concretely. -/
theorem list_versions_status_mapping_witness :
    ([{ version_id := "v2", timestamp := 9, size_bytes := 2, device_id := "d"
        file_list := [], sha256 := "B" }] : List CloudVersionSummary).length ≤ 1 :=
  (list_versions_status_mapping (some 1) 200 ""
      (some { ok := true
              versions :=
                [{ version_id := "v1", size_bytes := 1, timestamp := 5, device_id := "d"
                   sha256 := "A", file_list := [] },
                 { version_id := "v2", size_bytes := 2, timestamp := 9, device_id := "d"
                   sha256 := "B", file_list := [] }]
              error := none })).2.2.2.1
    [{ version_id := "v2", timestamp := 9, size_bytes := 2, device_id := "d"
       file_list := [], sha256 := "B" }] 1 rfl rfl

-- ===========================================================================
-- Section 7: history store retention (core/history.rs)
-- ===========================================================================

/-- The comparator `|a, b| b.metadata.timestamp.cmp(&a.metadata.timestamp)`
used by every `sort_by` call of `core/history.rs`: descending by
timestamp. -/
def historyGE (a b : HistoryEntry) : Prop :=
  b.metadata.timestamp ≤ a.metadata.timestamp

instance : DecidableRel historyGE :=
  fun a b => Nat.decLe b.metadata.timestamp a.metadata.timestamp

instance : IsTotal HistoryEntry historyGE :=
  ⟨fun a b => Nat.le_total b.metadata.timestamp a.metadata.timestamp⟩

instance : IsTrans HistoryEntry historyGE :=
  ⟨fun _ _ _ hab hbc => Nat.le_trans hbc hab⟩

/-- The stable descending sort by timestamp applied by
`core/history.rs` wherever it calls `sort_by`. -/
def sortEntriesDesc (l : List HistoryEntry) : List HistoryEntry :=
  List.insertionSort historyGE l

/-- Shallow embedding of `HistoryManager::enforce_retention` in
`core/history.rs` (lines 428-444): while the list is longer than the
limit, pop the last element (the file removals of the source are
best-effort side effects with no influence on the cache). -/
def enforce_retention (entries : List HistoryEntry) (limit : Nat) : List HistoryEntry :=
  if h : limit < entries.length then enforce_retention entries.dropLast limit
  else entries
termination_by entries.length
decreasing_by
  simp only [List.length_dropLast]
  omega

/-- State of the `HistoryManager`: the in-memory cache (a total map from
game id to its entry list, absent games holding `[]`), plus the
retention policy.  The two on-disk files per entry are owned by the
cache and are not modelled separately. -/
structure HistoryState where
  cache : String → List HistoryEntry
  retention_limit : Nat
  auto_delete : Bool

/-- Shallow embedding of `HistoryManager::insert_entry` (lines 381-391):
drop any previous entry with the same version id, push the new entry,
re-sort descending by timestamp. -/
def HistoryManager.insert_entry (st : HistoryState) (entry : HistoryEntry) : HistoryState :=
  { st with cache := fun g =>
      if g = entry.metadata.game_id then
        sortEntriesDesc ((st.cache entry.metadata.game_id).filter
          (fun e => !(e.metadata.version_id == entry.metadata.version_id)) ++ [entry])
      else st.cache g }

/-- Shallow embedding of `HistoryManager::trim_cache_for_game` (lines
393-408): when auto-delete is on, enforce retention for that game. -/
def HistoryManager.trim_cache_for_game (st : HistoryState) (game_id : String) : HistoryState :=
  if st.auto_delete = true then
    { st with cache := fun g =>
        if g = game_id then enforce_retention (st.cache game_id) st.retention_limit
        else st.cache g }
  else st

/-- Shallow embedding of `HistoryManager::save_to_history` (lines
148-194).  The input guards of the source are kept; the archive copy
and metadata write are filesystem effects summarized by the stored
paths. -/
def HistoryManager.save_to_history (st : HistoryState) (metadata : SaveMetadata) : HistoryState :=
  if metadata.game_id.trim = "" then st
  else if metadata.version_id.trim = "" then st
  else
    HistoryManager.trim_cache_for_game
      (HistoryManager.insert_entry st
        { archive_path := metadata.game_id ++ "/" ++ metadata.version_id ++ ".zip"
          metadata_path := metadata.game_id ++ "/" ++ metadata.version_id ++ ".json"
          metadata := metadata })
      metadata.game_id

/-- Shallow embedding of `HistoryManager::list_history` (lines 196-219)
on the cache: sort the cached list in place and return it.  The
disk-reload branch for games never seen by the cache only applies
before `init` has scanned the root and is subsumed by `init` here. -/
def HistoryManager.list_history (st : HistoryState) (game_id : String) :
    List HistoryEntry × HistoryState :=
  (sortEntriesDesc (st.cache game_id),
   { st with cache := fun g =>
       if g = game_id then sortEntriesDesc (st.cache game_id) else st.cache g })

/-- Shallow embedding of `HistoryManager::delete_history_item` (lines
272-297): remove the first cached entry with the given version id (the
source also deletes its two files). -/
def HistoryManager.delete_history_item (st : HistoryState) (game_id version_id : String) :
    HistoryState :=
  { st with cache := fun g =>
      if g = game_id then
        (st.cache game_id).eraseP (fun e => e.metadata.version_id == version_id)
      else st.cache g }

/-- Shallow embedding of `HistoryManager::set_policy` (lines 112-134):
store the new policy, then trim every game when auto-delete is on. -/
def HistoryManager.set_policy (st : HistoryState) (retention_limit : Nat)
    (auto_delete : Bool) : HistoryState :=
  if auto_delete = true then
    { cache := fun g => enforce_retention (st.cache g) retention_limit
      retention_limit := retention_limit
      auto_delete := auto_delete }
  else
    { st with retention_limit := retention_limit, auto_delete := auto_delete }

/-- Shallow embedding of `HistoryManager::init` (lines 46-90): load the
per-game entries (already sorted by `load_history_entries`) and, when
auto-delete is on, enforce retention per game. -/
def HistoryManager.init (raw : String → List HistoryEntry) (retention_limit : Nat)
    (auto_delete : Bool) : HistoryState :=
  { cache := fun g =>
      if auto_delete = true then enforce_retention (sortEntriesDesc (raw g)) retention_limit
      else sortEntriesDesc (raw g)
    retention_limit := retention_limit
    auto_delete := auto_delete }

/-- The History store operations a caller can apply after `init`. -/
inductive HistoryOp where
  | save (metadata : SaveMetadata)
  | list (game_id : String)
  | delete (game_id : String) (version_id : String)
  | policy (retention_limit : Nat) (auto_delete : Bool)
deriving Repr, DecidableEq

/-- One History store operation. -/
def HistoryManager.run_op (st : HistoryState) : HistoryOp → HistoryState
  | HistoryOp.save m => HistoryManager.save_to_history st m
  | HistoryOp.list g => (HistoryManager.list_history st g).2
  | HistoryOp.delete g v => HistoryManager.delete_history_item st g v
  | HistoryOp.policy l a => HistoryManager.set_policy st l a

/-- A sequence of History store operations. -/
def HistoryManager.run_ops (st : HistoryState) : List HistoryOp → HistoryState
  | [] => st
  | op :: rest => HistoryManager.run_ops (HistoryManager.run_op st op) rest

/-- An operation keeps auto-delete enabled. -/
def opAutoTrue : HistoryOp → Bool
  | HistoryOp.policy _ a => a
  | _ => true

/-- The retention invariant: auto-delete is on and every cached game
list is within the retention limit and sorted descending by
timestamp. -/
def retentionInv (st : HistoryState) : Prop :=
  st.auto_delete = true ∧
  ∀ g, (st.cache g).length ≤ st.retention_limit ∧ List.Sorted historyGE (st.cache g)

theorem enforce_retention_eq_take_aux (n : Nat) :
    ∀ (l : List HistoryEntry) (limit : Nat), l.length ≤ n →
    enforce_retention l limit = l.take limit := by
  induction n with
  | zero =>
      intro l limit hlen
      have hnil : l = [] := List.eq_nil_of_length_eq_zero (Nat.le_zero.mp hlen)
      subst hnil
      rw [enforce_retention]
      simp
  | succ n ih =>
      intro l limit hlen
      rw [enforce_retention]
      split
      · rename_i hlt
        have hdrop : l.dropLast.length ≤ n := by
          simp only [List.length_dropLast]
          omega
        rw [ih l.dropLast limit hdrop, List.dropLast_eq_take, List.take_take]
        have hmin : limit ⊓ (l.length - 1) = limit := by
          apply Nat.min_eq_left
          omega
        rw [hmin]
      · rename_i hge
        rw [List.take_of_length_le (Nat.le_of_not_lt hge)]

theorem enforce_retention_eq_take (l : List HistoryEntry) (limit : Nat) :
    enforce_retention l limit = l.take limit :=
  enforce_retention_eq_take_aux l.length l limit (Nat.le_refl _)

theorem sorted_sortEntriesDesc (l : List HistoryEntry) :
    List.Sorted historyGE (sortEntriesDesc l) :=
  List.sorted_insertionSort historyGE l

theorem length_sortEntriesDesc (l : List HistoryEntry) :
    (sortEntriesDesc l).length = l.length :=
  List.length_insertionSort historyGE l

theorem sorted_take {l : List HistoryEntry} (h : List.Sorted historyGE l) (n : Nat) :
    List.Sorted historyGE (l.take n) :=
  List.Pairwise.sublist (List.take_sublist n l) h

theorem length_take_le (l : List HistoryEntry) (n : Nat) : (l.take n).length ≤ n := by
  simp only [List.length_take]
  omega

theorem trim_cache_inv (st : HistoryState) (gid : String)
    (hauto : st.auto_delete = true)
    (hsorted : List.Sorted historyGE (st.cache gid))
    (hother : ∀ g, g ≠ gid →
      (st.cache g).length ≤ st.retention_limit ∧ List.Sorted historyGE (st.cache g)) :
    retentionInv (HistoryManager.trim_cache_for_game st gid) := by
  unfold HistoryManager.trim_cache_for_game
  rw [if_pos hauto]
  refine ⟨hauto, fun g => ?_⟩
  by_cases hg : g = gid
  · subst hg
    simp only [eq_self_iff_true, if_true, enforce_retention_eq_take]
    exact ⟨length_take_le _ _, sorted_take hsorted _⟩
  · simp only [if_neg hg]
    exact hother g hg

theorem run_op_inv (st : HistoryState) (op : HistoryOp)
    (hop : opAutoTrue op = true) (hst : retentionInv st) :
    retentionInv (HistoryManager.run_op st op) := by
  obtain ⟨hauto, hgames⟩ := hst
  cases op with
  | save m =>
      simp only [HistoryManager.run_op, HistoryManager.save_to_history]
      split
      · exact ⟨hauto, hgames⟩
      · split
        · exact ⟨hauto, hgames⟩
        · apply trim_cache_inv
          · exact hauto
          · simp only [HistoryManager.insert_entry, eq_self_iff_true, if_true]
            exact sorted_sortEntriesDesc _
          · intro g hg
            simp only [HistoryManager.insert_entry, if_neg hg]
            exact hgames g
  | list g0 =>
      simp only [HistoryManager.run_op, HistoryManager.list_history]
      refine ⟨hauto, fun g => ?_⟩
      by_cases hg : g = g0
      · subst hg
        simp only [eq_self_iff_true, if_true]
        refine ⟨?_, sorted_sortEntriesDesc _⟩
        rw [length_sortEntriesDesc]
        exact (hgames g).1
      · simp only [if_neg hg]
        exact hgames g
  | delete g0 v0 =>
      simp only [HistoryManager.run_op, HistoryManager.delete_history_item]
      refine ⟨hauto, fun g => ?_⟩
      by_cases hg : g = g0
      · subst hg
        simp only [eq_self_iff_true, if_true]
        exact ⟨Nat.le_trans (List.Sublist.length_le (List.eraseP_sublist _)) (hgames g).1,
          List.Pairwise.sublist (List.eraseP_sublist _) (hgames g).2⟩
      · simp only [if_neg hg]
        exact hgames g
  | policy limit2 a =>
      have ha : a = true := hop
      subst ha
      simp only [HistoryManager.run_op, HistoryManager.set_policy, eq_self_iff_true, if_true]
      refine ⟨rfl, fun g => ?_⟩
      simp only [enforce_retention_eq_take]
      exact ⟨length_take_le _ _, sorted_take (hgames g).2 _⟩

theorem run_ops_inv (ops : List HistoryOp) :
    ∀ st, (∀ op ∈ ops, opAutoTrue op = true) → retentionInv st →
    retentionInv (HistoryManager.run_ops st ops) := by
  induction ops with
  | nil => intro st _ hst; exact hst
  | cons op rest ih =>
      intro st hops hst
      exact ih _ (fun o ho => hops o (List.mem_cons_of_mem _ ho))
        (run_op_inv st op (hops op (List.mem_cons_self _ _)) hst)

theorem init_inv (raw : String → List HistoryEntry) (limit : Nat) :
    retentionInv (HistoryManager.init raw limit true) := by
  refine ⟨rfl, fun g => ?_⟩
  unfold HistoryManager.init
  simp only [eq_self_iff_true, if_true, enforce_retention_eq_take]
  exact ⟨length_take_le _ _, sorted_take (sorted_sortEntriesDesc _) _⟩

/-- C2: after `init` with auto-delete on and any sequence of History
operations whose policy changes keep auto-delete on, every game reports
at most `retention_limit` entries from `list_history`; and on a
descending-sorted list each trim keeps exactly the newest `limit`
entries, every removed entry being at least as old as every kept one
(the source pops from the tail, where the smallest timestamps live). -/
theorem history_retention_bound (raw : String → List HistoryEntry)
    (limit : Nat) (ops : List HistoryOp) (g : String)
    (hops : ∀ op ∈ ops, opAutoTrue op = true) :
    ((HistoryManager.list_history
        (HistoryManager.run_ops (HistoryManager.init raw limit true) ops) g).1.length ≤
      (HistoryManager.run_ops (HistoryManager.init raw limit true) ops).retention_limit)
    ∧ (∀ (l : List HistoryEntry) (lim : Nat), List.Sorted historyGE l →
        enforce_retention l lim = l.take lim
        ∧ ∀ kept ∈ l.take lim, ∀ removed ∈ l.drop lim,
            removed.metadata.timestamp ≤ kept.metadata.timestamp) := by
  constructor
  · have hinv := run_ops_inv ops (HistoryManager.init raw limit true) hops
      (init_inv raw limit)
    unfold HistoryManager.list_history
    simp only []
    rw [length_sortEntriesDesc]
    exact (hinv.2 g).1
  · intro l lim hsorted
    refine ⟨enforce_retention_eq_take l lim, ?_⟩
    intro kept hkept removed hremoved
    have hsplit : List.Pairwise historyGE (l.take lim ++ l.drop lim) := by
      rw [List.take_append_drop]
      exact hsorted
    exact (List.pairwise_append.mp hsplit).2.2 kept hkept removed hremoved

/-- A concrete metadata record for the C2 witness. -/
def sampleMeta (version_id : String) (timestamp : Nat) : SaveMetadata :=
  { game_id := "sm64", emulator_id := "dolphin", timestamp := timestamp
    version_id := version_id, file_list := ["save.srm"], hash := version_id
    size_bytes := none, sha256 := none, source := none }

/-- Witness for C2: three saves into an empty store with retention limit
2 report at most 2 entries for the game. -/
theorem history_retention_bound_witness :
    (HistoryManager.list_history
        (HistoryManager.run_ops (HistoryManager.init (fun _ => []) 2 true)
          [HistoryOp.save (sampleMeta "v1" 1), HistoryOp.save (sampleMeta "v2" 2),
           HistoryOp.save (sampleMeta "v3" 3)]) "sm64").1.length ≤
      (HistoryManager.run_ops (HistoryManager.init (fun _ => []) 2 true)
        [HistoryOp.save (sampleMeta "v1" 1), HistoryOp.save (sampleMeta "v2" 2),
         HistoryOp.save (sampleMeta "v3" 3)]).retention_limit :=
  (history_retention_bound (fun _ => []) 2
      [HistoryOp.save (sampleMeta "v1" 1), HistoryOp.save (sampleMeta "v2" 2),
       HistoryOp.save (sampleMeta "v3" 3)] "sm64" (by decide)).1

-- ===========================================================================
-- Section 8: zip-slip safety of download extraction (core/sync.rs,
-- perform_download лines 1207-1229, and zip::read::ZipFile::enclosed_name)
-- ===========================================================================

/-- Mirrors `std::path::Component` as produced by `Path::components` on
an archive entry name: a Windows prefix, the root, `.`, `..`, or a
normal name. -/
inductive PathComponent where
  | prefixComp
  | rootDir
  | curDir
  | parentDir
  | normal (name : String)
deriving Repr, DecidableEq

/-- The `self.name().contains('\0')` guard of `enclosed_name`, read at
component level: some normal component contains a NUL character. -/
def zipContainsNul (name : List PathComponent) : Bool :=
  name.any fun c =>
    match c with
    | PathComponent.normal s => s.toList.any (fun ch => ch.toNat == 0)
    | _ => false

/-- The depth scan of `zip::read::ZipFile::enclosed_name`: walk the
components keeping a depth counter; a prefix or root component rejects
the name, `..` decrements via `checked_sub` (rejecting at depth zero),
a normal component increments, `.` is skipped. -/
def enclosedDepthAux : Nat → List PathComponent → Option Nat
  | d, [] => some d
  | _, PathComponent.prefixComp :: _ => none
  | _, PathComponent.rootDir :: _ => none
  | d, PathComponent.parentDir :: rest =>
      match d with
      | 0 => none
      | Nat.succ d2 => enclosedDepthAux d2 rest
  | d, PathComponent.curDir :: rest => enclosedDepthAux d rest
  | d, PathComponent.normal _ :: rest => enclosedDepthAux (d + 1) rest

/-- Shallow embedding of `zip::read::ZipFile::enclosed_name`, the
sanitizer `perform_download` calls for every archive entry (the entry
is skipped when it returns nothing and the name is returned unchanged
when the scan accepts it). -/
def enclosed_name (name : List PathComponent) : Option (List PathComponent) :=
  if zipContainsNul name then none
  else
    match enclosedDepthAux 0 name with
    | some _ => some name
    | none => none

/-- Filesystem path resolution relative to the filesystem root: normal
names push onto the stack, `.` is skipped, `..` pops (failing above the
root), prefix and root components are rejected mid-path.  A path is
inside a directory exactly when its resolution extends that directory's
stack. -/
def resolveAux (stack : List String) : List PathComponent → Option (List String)
  | [] => some stack
  | PathComponent.normal s :: rest => resolveAux (stack ++ [s]) rest
  | PathComponent.curDir :: rest => resolveAux stack rest
  | PathComponent.parentDir :: rest =>
      if stack.isEmpty then none else resolveAux stack.dropLast rest
  | PathComponent.rootDir :: _ => none
  | PathComponent.prefixComp :: _ => none

/-- The extraction loop of `perform_download` (lines 1207-1229 of
`core/sync.rs`) as the list of paths it writes: each entry with an
accepted `enclosed_name` is written at `target_dir.join(name)`; every
other entry is skipped. -/
def perform_download_writes (target_dir : List String)
    (entries : List (List PathComponent)) : List (List PathComponent) :=
  entries.filterMap
    (fun e => (enclosed_name e).map
      (fun name => target_dir.map PathComponent.normal ++ name))

theorem resolveAux_of_depth (name : List PathComponent) :
    ∀ (d d2 : Nat) (base extra : List String), extra.length = d →
    enclosedDepthAux d name = some d2 →
    ∃ r, resolveAux (base ++ extra) name = some r ∧ ∃ rest, r = base ++ rest := by
  induction name with
  | nil =>
      intro d d2 base extra hlen hdepth
      exact ⟨base ++ extra, rfl, extra, rfl⟩
  | cons c rest ih =>
      intro d d2 base extra hlen hdepth
      cases c with
      | prefixComp => exact Option.noConfusion hdepth
      | rootDir => exact Option.noConfusion hdepth
      | curDir =>
          exact ih d d2 base extra hlen hdepth
      | parentDir =>
          cases d with
          | zero => exact Option.noConfusion hdepth
          | succ d3 =>
              have hne : extra ≠ [] := by
                intro hnil
                rw [hnil] at hlen
                exact Nat.noConfusion hlen
              have hstack : (base ++ extra).isEmpty = false := by
                cases extra with
                | nil => exact absurd rfl hne
                | cons x xs =>
                    rw [List.isEmpty_eq_false_iff_exists_mem]
                    exact ⟨x, List.mem_append_right _ (List.mem_cons_self _ _)⟩
              have hdrop : (base ++ extra).dropLast = base ++ extra.dropLast :=
                List.dropLast_append_of_ne_nil base hne
              have hlen2 : extra.dropLast.length = d3 := by
                rw [List.length_dropLast, hlen]
                omega
              obtain ⟨r, hr, rest2, hrest⟩ := ih d3 d2 base extra.dropLast hlen2 hdepth
              refine ⟨r, ?_, rest2, hrest⟩
              simp only [resolveAux, hstack, if_false, Bool.false_eq_true]
              rw [hdrop]
              exact hr
      | normal s =>
          have hlen2 : (extra ++ [s]).length = d + 1 := by
            rw [List.length_append, hlen]
            rfl
          obtain ⟨r, hr, rest2, hrest⟩ := ih (d + 1) d2 base (extra ++ [s]) hlen2 hdepth
          refine ⟨r, ?_, rest2, hrest⟩
          simp only [resolveAux]
          rw [List.append_assoc]
          exact hr

theorem resolveAux_append_normals (ts : List String) :
    ∀ (stack : List String) (rest : List PathComponent),
    resolveAux stack (ts.map PathComponent.normal ++ rest) =
      resolveAux (stack ++ ts) rest := by
  induction ts with
  | nil => intro stack rest; simp
  | cons t ts2 ih =>
      intro stack rest
      simp only [List.map_cons, List.cons_append, resolveAux, List.append_eq]
      rw [ih]
      congr 1
      simp

theorem enclosed_name_inv {e n : List PathComponent} (h : enclosed_name e = some n) :
    n = e ∧ ∃ d2, enclosedDepthAux 0 e = some d2 := by
  unfold enclosed_name at h
  split at h
  · exact Option.noConfusion h
  · split at h
    · rename_i d2 hd
      exact ⟨(Option.some.inj h).symm, d2, hd⟩
    · exact Option.noConfusion h

/-- C3: during download extraction, an entry whose `enclosed_name` is
rejected is skipped and writes nothing; an accepted entry is written at
`target_dir.join(name)`; and every written path resolves to a path that
extends the target directory, so no file is ever written outside it. -/
theorem perform_download_zip_slip_safety (target_dir : List String)
    (entries : List (List PathComponent)) :
    (∀ e, enclosed_name e = none → perform_download_writes target_dir [e] = [])
    ∧ (∀ e n, enclosed_name e = some n →
        perform_download_writes target_dir [e] =
          [target_dir.map PathComponent.normal ++ n])
    ∧ (∀ w ∈ perform_download_writes target_dir entries,
        ∃ rest, resolveAux [] w = some (target_dir ++ rest)) := by
  refine ⟨?_, ?_, ?_⟩
  · intro e he
    simp [perform_download_writes, he]
  · intro e n he
    simp [perform_download_writes, he]
  · intro w hw
    obtain ⟨e, he, hmap⟩ := List.mem_filterMap.mp hw
    cases hname : enclosed_name e with
    | none => rw [hname] at hmap; exact Option.noConfusion hmap
    | some n =>
        rw [hname] at hmap
        have hw2 : w = target_dir.map PathComponent.normal ++ n := (Option.some.inj hmap).symm
        obtain ⟨hne, d2, hdepth⟩ := enclosed_name_inv hname
        subst hne
        obtain ⟨r, hr, rest2, hrest⟩ :=
          resolveAux_of_depth n 0 d2 target_dir [] rfl hdepth
        subst hrest
        refine ⟨rest2, ?_⟩
        rw [hw2, resolveAux_append_normals target_dir [] n]
        simpa using hr

/-- Witness for C3: extracting an archive holding a plain entry and a
traversal entry `../evil` into `saves` writes only `saves/a.srm`, which
resolves inside `saves`. -/
theorem perform_download_zip_slip_safety_witness :
    ∃ rest,
      resolveAux []
        [PathComponent.normal "saves", PathComponent.normal "a.srm"] =
        some (["saves"] ++ rest) :=
  (perform_download_zip_slip_safety ["saves"]
      [[PathComponent.normal "a.srm"],
       [PathComponent.parentDir, PathComponent.normal "evil"]]).2.2
    [PathComponent.normal "saves", PathComponent.normal "a.srm"] (by decide)

-- ===========================================================================
-- Section 9: packager version identifier (core/packager.rs,
-- SavePackager::generate_version_id) with a full SHA-256 over Nat bytes
-- ===========================================================================

/-- Addition modulo 2^32. -/
def add32 (a b : Nat) : Nat := (a + b) % 4294967296

/-- Right rotation of a 32-bit word. -/
def rotr32 (n x : Nat) : Nat := (x / 2 ^ n + (x % 2 ^ n) * 2 ^ (32 - n)) % 4294967296

/-- Logical right shift of a 32-bit word. -/
def shr32 (n x : Nat) : Nat := x / 2 ^ n

/-- The lower-case sigma-0 function of SHA-256. -/
def smallSigma0 (x : Nat) : Nat := Nat.xor (Nat.xor (rotr32 7 x) (rotr32 18 x)) (shr32 3 x)

/-- The lower-case sigma-1 function of SHA-256. -/
def smallSigma1 (x : Nat) : Nat := Nat.xor (Nat.xor (rotr32 17 x) (rotr32 19 x)) (shr32 10 x)

/-- The upper-case Sigma-0 function of SHA-256. -/
def bigSigma0 (x : Nat) : Nat := Nat.xor (Nat.xor (rotr32 2 x) (rotr32 13 x)) (rotr32 22 x)

/-- The upper-case Sigma-1 function of SHA-256. -/
def bigSigma1 (x : Nat) : Nat := Nat.xor (Nat.xor (rotr32 6 x) (rotr32 11 x)) (rotr32 25 x)

/-- The choice function of SHA-256 (complement taken against the 32-bit
all-ones word). -/
def chFn (e f g : Nat) : Nat :=
  Nat.xor (Nat.land e f) (Nat.land (Nat.xor e 4294967295) g)

/-- The majority function of SHA-256. -/
def majFn (a b c : Nat) : Nat :=
  Nat.xor (Nat.xor (Nat.land a b) (Nat.land a c)) (Nat.land b c)

/-- The 64 SHA-256 round constants. -/
def sha256K : List Nat :=
  [1116352408, 1899447441, 3049323471, 3921009573,
   961987163, 1508970993, 2453635748, 2870763221,
   3624381080, 310598401, 607225278, 1426881987,
   1925078388, 2162078206, 2614888103, 3248222580,
   3835390401, 4022224774, 264347078, 604807628,
   770255983, 1249150122, 1555081692, 1996064986,
   2554220882, 2821834349, 2952996808, 3210313671,
   3336571891, 3584528711, 113926993, 338241895,
   666307205, 773529912, 1294757372, 1396182291,
   1695183700, 1986661051, 2177026350, 2456956037,
   2730485921, 2820302411, 3259730800, 3345764771,
   3516065817, 3600352804, 4094571909, 275423344,
   430227734, 506948616, 659060556, 883997877,
   958139571, 1322822218, 1537002063, 1747873779,
   1955562222, 2024104815, 2227730452, 2361852424,
   2428436474, 2756734187, 3204031479, 3329325298]

/-- The SHA-256 initial hash value. -/
def sha256H0 : List Nat :=
  [1779033703, 3144134277, 1013904242, 2773480762,
   1359893119, 2600822924, 528734635, 1541459225]

/-- Big-endian bytes to 32-bit words. -/
def bytesToWords : List Nat → List Nat
  | b0 :: b1 :: b2 :: b3 :: rest =>
      (((b0 * 256 + b1) * 256 + b2) * 256 + b3) :: bytesToWords rest
  | _ => []

/-- The next word of the SHA-256 message schedule. -/
def nextScheduleWord (w : List Nat) : Nat :=
  let n := w.length
  add32 (add32 (w.getD (n - 16) 0) (smallSigma0 (w.getD (n - 15) 0)))
        (add32 (w.getD (n - 7) 0) (smallSigma1 (w.getD (n - 2) 0)))

/-- Extend the 16-word schedule by the given number of words. -/
def extendSchedule (w : List Nat) : Nat → List Nat
  | 0 => w
  | n + 1 => extendSchedule (w ++ [nextScheduleWord w]) n

/-- The eight SHA-256 working registers. -/
structure Sha256Regs where
  a : Nat
  b : Nat
  c : Nat
  d : Nat
  e : Nat
  f : Nat
  g : Nat
  h : Nat

/-- One SHA-256 compression round. -/
def sha256Round (r : Sha256Regs) (k w : Nat) : Sha256Regs :=
  let t1 := (r.h + bigSigma1 r.e + chFn r.e r.f r.g + k + w) % 4294967296
  let t2 := (bigSigma0 r.a + majFn r.a r.b r.c) % 4294967296
  { a := (t1 + t2) % 4294967296, b := r.a, c := r.b, d := r.c
    e := (r.d + t1) % 4294967296, f := r.e, g := r.f, h := r.g }

/-- The SHA-256 compression function on one 64-byte block. -/
def sha256Compress (hs : List Nat) (block : List Nat) : List Nat :=
  let w := extendSchedule (bytesToWords block) 48
  let regs0 : Sha256Regs :=
    { a := hs.getD 0 0, b := hs.getD 1 0, c := hs.getD 2 0, d := hs.getD 3 0
      e := hs.getD 4 0, f := hs.getD 5 0, g := hs.getD 6 0, h := hs.getD 7 0 }
  let r := (sha256K.zip w).foldl (fun r kw => sha256Round r kw.1 kw.2) regs0
  [add32 (hs.getD 0 0) r.a, add32 (hs.getD 1 0) r.b, add32 (hs.getD 2 0) r.c,
   add32 (hs.getD 3 0) r.d, add32 (hs.getD 4 0) r.e, add32 (hs.getD 5 0) r.f,
   add32 (hs.getD 6 0) r.g, add32 (hs.getD 7 0) r.h]

/-- Big-endian encoding of a number into the given number of bytes. -/
def toBytesBE (n : Nat) : Nat → List Nat
  | 0 => []
  | k + 1 => toBytesBE (n / 256) k ++ [n % 256]

/-- SHA-256 message padding: a 0x80 byte, zeros to 56 mod 64, and the
bit length as 8 big-endian bytes. -/
def sha256Pad (msg : List Nat) : List Nat :=
  msg ++ [128] ++ List.replicate ((119 - msg.length % 64) % 64) 0 ++
    toBytesBE (msg.length * 8) 8

/-- Fold the compression function over the given number of 64-byte
chunks. -/
def sha256Chunks (hs : List Nat) (data : List Nat) : Nat → List Nat
  | 0 => hs
  | n + 1 => sha256Chunks (sha256Compress hs (data.take 64)) (data.drop 64) n

/-- SHA-256 of a byte list, as the 32 digest bytes.  Checked against the
NIST vectors for the empty string, "abc" and the 56-byte alphabet
message. -/
def sha256Bytes (msg : List Nat) : List Nat :=
  let padded := sha256Pad msg
  ((sha256Chunks sha256H0 padded (padded.length / 64)).map
    (fun w => toBytesBE w 4)).flatten

/-- One lower-case hexadecimal digit, as produced by the `{:x}` format
of the source. -/
def hexDigit (n : Nat) : Char :=
  if n < 10 then Char.ofNat (48 + n) else Char.ofNat (87 + n)

/-- Lower-case hexadecimal rendering of a byte list, mirroring
`format!("{:x}", hasher.finalize())`. -/
def bytesToHex (bytes : List Nat) : String :=
  String.mk ((bytes.map (fun b => [hexDigit (b / 16), hexDigit (b % 16)])).flatten)

/-- UTF-8 encoding of one character, mirroring `str::as_bytes` on the
strings the source hashes. -/
def utf8EncodeChar (c : Char) : List Nat :=
  let n := c.toNat
  if n < 128 then [n]
  else if n < 2048 then [192 + n / 64, 128 + n % 64]
  else if n < 65536 then [224 + n / 4096, 128 + (n / 64) % 64, 128 + n % 64]
  else [240 + n / 262144, 128 + (n / 4096) % 64, 128 + (n / 64) % 64, 128 + n % 64]

/-- UTF-8 bytes of a string. -/
def utf8Bytes (s : String) : List Nat :=
  (s.toList.map utf8EncodeChar).flatten

/-- Shallow embedding of `SavePackager::generate_version_id` in
`core/packager.rs` (lines 287-292): hash the pipe-joined file list,
render it in hex, prepend the decimal timestamp, and hash again
(`format!("{timestamp}{file_list_hash}")` feeds the concatenated string
through SHA-256). -/
def generate_version_id (timestamp : Nat) (file_list : List String) : String :=
  let file_list_hash :=
    bytesToHex (sha256Bytes (utf8Bytes (String.intercalate "|" file_list)))
  bytesToHex (sha256Bytes (utf8Bytes (Nat.repr timestamp ++ file_list_hash)))

/-- The version identifier exactly as the specification words it:
`hex(SHA256(decimal(timestamp) || hex(SHA256(join(file_list, "|")))))`
with `||` as byte-string concatenation. -/
def specVersionId (timestamp : Nat) (file_list : List String) : String :=
  bytesToHex (sha256Bytes
    (utf8Bytes (Nat.repr timestamp) ++
     utf8Bytes (bytesToHex (sha256Bytes (utf8Bytes (String.intercalate "|" file_list))))))

theorem utf8Bytes_append (a b : String) :
    utf8Bytes (a ++ b) = utf8Bytes a ++ utf8Bytes b := by
  unfold utf8Bytes
  have htl : (a ++ b).toList = a.toList ++ b.toList := rfl
  rw [htl, List.map_append, List.flatten_append]

/-- C5: the packager version identifier equals the specification formula
`hex(SHA256(decimal(timestamp) || hex(SHA256(join(file_list, "|")))))`,
and it is a pure function of the timestamp and the file list: equal
inputs give equal identifiers. -/
theorem generate_version_id_spec (timestamp : Nat) (file_list : List String) :
    generate_version_id timestamp file_list = specVersionId timestamp file_list
    ∧ ∀ t2 fl2, timestamp = t2 → file_list = fl2 →
        generate_version_id timestamp file_list = generate_version_id t2 fl2 := by
  constructor
  · simp only [generate_version_id, specVersionId, utf8Bytes_append]
  · intro t2 fl2 ht hfl
    rw [ht, hfl]

/-- Witness for C5: the identifier for timestamp 1700000000 and file
list ["a.srm", "c.sav"] agrees with the specification formula and with
itself on equal inputs. -/
theorem generate_version_id_spec_witness :
    generate_version_id 1700000000 ["a.srm", "c.sav"] =
      specVersionId 1700000000 ["a.srm", "c.sav"]
    ∧ generate_version_id 1700000000 ["a.srm", "c.sav"] =
      generate_version_id 1700000000 ["a.srm", "c.sav"] :=
  ⟨(generate_version_id_spec 1700000000 ["a.srm", "c.sav"]).1,
   (generate_version_id_spec 1700000000 ["a.srm", "c.sav"]).2
     1700000000 ["a.srm", "c.sav"] rfl rfl⟩
